import Mathlib

/-!
Verification of the `english_games_word` repository: a shallow embedding of
the word parser (`word_parser.py`), the Neo4j graph loader
(`neo4j_import.py`) and the query/service layer (`app.py`), together with
proofs about the properties the specification states for them.

Graph-store semantics are embedded as explicit state passing over a
`GraphState` record; Cypher `MERGE` becomes insert-if-absent (for nodes and
relationships) plus property overwrite, `MATCH` becomes a guard on the
state, and `ORDER BY rand()` becomes an arbitrary permutation parameter.
Store-connectivity is an `Option GraphState` (`none` = session acquisition
failed, mirroring `Neo4jConnection.get_session` returning `None`) and a
`runOk : Bool` flag models whether the driver raises during
`session.run` (an uncaught exception is `Except.error`).
-/

deriving instance DecidableEq for Except

namespace WordGames

/-! ## Parser data model (`word_parser.py`, class `Word`) -/

/-- One parsed vocabulary entry, mirroring the `Word` dataclass. -/
structure Word where
  word : String
  phonetic : String := ""
  pos : String := ""
  definition : String := ""
  page : String := ""
  grade : String := ""
  difficulty : Nat := 1
  is_phrase : Bool := false
  root : String := ""
deriving Repr, DecidableEq, Inhabited

/-- The static root table `WordParser.COMMON_ROOTS`, in definition order
(Python dicts preserve insertion order). -/
def COMMON_ROOTS : List (String × List String) :=
  [ ("act", ["act", "action", "active", "activity", "actor", "actress", "actually", "react", "interaction"]),
    ("port", ["port", "import", "export", "transport", "portable", "report", "support", "airport"]),
    ("dict", ["dictionary", "predict", "contradict", "indicate"]),
    ("ject", ["project", "reject", "inject", "object", "subject"]),
    ("spect", ["respect", "expect", "inspect", "aspect", "spectator"]),
    ("struct", ["structure", "construct", "instruct", "destroy"]),
    ("vis/vid", ["visible", "visit", "vision", "video", "provide", "divide"]),
    ("aud", ["audience", "audio", "auditorium"]),
    ("scrib/script", ["describe", "subscribe", "script", "prescription"]),
    ("duc/duct", ["produce", "reduce", "introduce", "conduct", "educate"]),
    ("form", ["form", "inform", "perform", "transform", "uniform"]),
    ("mit/mis", ["permit", "submit", "admit", "promise", "mission"]),
    ("vent/ven", ["event", "prevent", "invent", "adventure", "avenue"]),
    ("tend/tens", ["attend", "extend", "intend", "tension"]),
    ("cess/ced", ["process", "success", "access", "proceed"]),
    ("press", ["express", "impress", "pressure", "depress"]),
    ("serve", ["serve", "reserve", "preserve", "observe", "service"]),
    ("sist", ["assist", "consist", "insist", "resist", "exist"]),
    ("cap/cep/ceiv", ["accept", "receive", "capable", "capture"]),
    ("cred", ["credit", "incredible", "credible"]) ]

/-- Python `str.lower()`: lowercase every character.  (Equivalent to
`String.toLower`, written as a structural map so it is kernel-computable;
on this ASCII table Python's `str.lower()` is exactly per-character
lowercasing.) -/
def lowerStr (s : String) : String := ⟨s.data.map Char.toLower⟩

/-- Python `root.split('/')[0]`: the primary label of a (possibly combined) root key. -/
def primaryLabel (key : String) : String := ⟨key.data.takeWhile (fun c => c ≠ '/')⟩

/-- One assignment `word_lower_map[word_text.lower()].root = label`.

The Python dict `word_lower_map` is built with `{w.word.lower(): w for w in
self.words}`, so a lowercased headword maps to the *last* entry carrying it;
setting `.root` on that object mutates the last matching list element. -/
def assignLast (es : List Word) (memberWord : String) (label : String) : List Word :=
  match es with
  | [] => []
  | w :: ws =>
    if ws.any (fun v => lowerStr v.word = lowerStr memberWord) then
      w :: assignLast ws memberWord label
    else if lowerStr w.word = lowerStr memberWord then
      { w with root := label } :: ws
    else
      w :: ws

/-- The inner loop of `_identify_roots` for a single root family. -/
def applyFamily (es : List Word) (key : String) (members : List String) : List Word :=
  members.foldl (fun es m => assignLast es m (primaryLabel key)) es

/-- Model of `WordParser._identify_roots`: walk the static table in definition order,
assigning each matched member word's entry the family's primary label. -/
def identifyRoots (es : List Word) : List Word :=
  COMMON_ROOTS.foldl (fun es fam => applyFamily es fam.1 fam.2) es

/-- The root table flattened to `(member word, primary label)` assignments
in the order `_identify_roots` performs them. -/
def rootAssignments : List (String × String) :=
  COMMON_ROOTS.flatMap (fun fam => fam.2.map (fun m => (m, primaryLabel fam.1)))

/-- A sequence of `assignLast` steps, one per `(member word, label)` row. -/
def applyAssignments (ps : List (String × String)) (es : List Word) : List Word :=
  ps.foldl (fun es p => assignLast es p.1 p.2) es

/-- The per-entry outcome of the assignment sequence `ps`: an entry with a
later duplicate of its lowercased headword is untouched (the dict maps the
lowercased headword to the last such entry); otherwise the last assignment
matching the headword wins, and an unmatched entry keeps its root. -/
def resolveOne (ps : List (String × String)) (later : List Word) (w : Word) :
    Word :=
  if later.any (fun v => lowerStr v.word = lowerStr w.word) then w
  else
    match (ps.filter (fun p => lowerStr p.1 = lowerStr w.word)).getLast? with
    | some p => { w with root := p.2 }
    | none => w

/-- The resolver `resolveOne` applied at every position (each entry sees the entries
after it). -/
def resolveAll (ps : List (String × String)) : List Word → List Word
  | [] => []
  | w :: ws => resolveOne ps ws w :: resolveAll ps ws

/-- The root the table assigns to a lowercased headword, when any: the last
matching row of the flattened table (so the last family in definition order
listing the word wins). -/
def winningRoot (lw : String) : Option String :=
  ((rootAssignments.filter (fun p => lowerStr p.1 = lw)).getLast?).map Prod.snd

/-- Two entries sharing the headword `act`: the duplicate-headword input
for the root-identification pass. -/
def dupEntries : List Word :=
  [{ word := "act" }, { word := "act" }]

/-- Three entries sharing the root `act`, used as a concrete ingestion
input. -/
def rootSampleEntries : List Word :=
  [{ word := "act", definition := "A", grade := "7年级上册", root := "act" },
   { word := "action", definition := "B", grade := "7年级上册", root := "act" },
   { word := "react", definition := "C", grade := "7年级上册", root := "act" }]

/-! ## Graph store model

Node labels `Word`, `Grade`, `Root`, `User`, `Prize` and relationship types
`BELONGS_TO`, `HAS_ROOT`, `SAME_ROOT` from the schema in
`neo4j_import.py` / `app.py`.  Node identity follows the natural key; the
position of a key in its key list is the node's creation order, standing in
for the Neo4j internal `id()` used by `create_same_root_relations`.
Properties set via `SET` live in a key-indexed function. -/

/-- Properties `import_words` stores on a `Word` node (`grade` and `root`
are relationships, not properties). -/
structure WordProps where
  phonetic : String
  pos : String
  definition : String
  page : String
  difficulty : Nat
  is_phrase : Bool
  mastered_count : Nat
  wrong_count : Nat
deriving Repr, DecidableEq

/-- The `SET` clause of `create_word_query`. -/
def wordPropsOf (w : Word) : WordProps :=
  { phonetic := w.phonetic, pos := w.pos, definition := w.definition,
    page := w.page, difficulty := w.difficulty, is_phrase := w.is_phrase,
    mastered_count := 0, wrong_count := 0 }

/-- Properties of a `Grade` node (`import_grades`). -/
structure GradeProps where
  level : Nat
  floor_start : Nat
  floor_end : Nat
deriving Repr, DecidableEq

/-- A `User` node.  All gameplay properties are optional because
`MERGE (u:User {id: ...})` can create a node carrying only `id` (e.g. in
`set_parent_password`), leaving the others null. -/
structure UserNode where
  id : String
  total_questions : Option Int := none
  correct_answers : Option Int := none
  score : Option Int := none
  current_floor : Option Int := none
  mastered_count : Option Int := none
  wrong_count : Option Int := none
  last_active : Option Nat := none
  parent_password : Option String := none
deriving Repr, DecidableEq, Inhabited

/-- A `Prize` node (`save_custom_prizes` / `get_custom_prizes`). -/
structure PrizeNode where
  name : String
  description : String
  weight : Int
  type : String
deriving Repr, DecidableEq

/-- The whole graph store. -/
structure GraphState where
  wordKeys : List String
  wordProps : String → Option WordProps
  gradeKeys : List String
  gradeProps : String → Option GradeProps
  rootKeys : List String
  belongsTo : List (String × String)
  hasRoot : List (String × String)
  sameRoot : List (String × String × String)
  users : List UserNode
  prizes : List PrizeNode

/-- The store after `clear_database` (`MATCH (n) DETACH DELETE n`). -/
def emptyState : GraphState :=
  { wordKeys := [], wordProps := fun _ => none,
    gradeKeys := [], gradeProps := fun _ => none,
    rootKeys := [], belongsTo := [], hasRoot := [], sameRoot := [],
    users := [], prizes := [] }

/-- Cypher `MERGE` on a node or relationship pattern: keep the list unchanged when
the element is already present, else append it (fresh id at the end). -/
def insertOnce {α : Type} [DecidableEq α] (l : List α) (a : α) : List α :=
  if a ∈ l then l else l ++ [a]

/-- Cypher `SET` on the node with key `k`: point update of the property table. -/
def setKey {β : Type} (f : String → Option β) (k : String) (b : β) :
    String → Option β :=
  fun x => if x = k then some b else f x

/-! ## Graph loader (`neo4j_import.py`, class `Neo4jWordImporter`) -/

/-- The five grades hard-coded in `import_grades`. -/
def gradeTable : List (String × GradeProps) :=
  [ ("7年级上册", ⟨1, 1, 2⟩),
    ("7年级下册", ⟨2, 2, 3⟩),
    ("8年级上册", ⟨3, 4, 5⟩),
    ("8年级下册", ⟨4, 5, 6⟩),
    ("9年级", ⟨5, 7, 9⟩) ]

/-- Model of `import_grades`: `MERGE (g:Grade {name}) SET g.level, ...` per row. -/
def importGrades (s : GraphState) : GraphState :=
  gradeTable.foldl
    (fun s g =>
      { s with gradeKeys := insertOnce s.gradeKeys g.1,
               gradeProps := setKey s.gradeProps g.1 g.2 }) s

/-- Model of `import_roots`: filter out falsy names, then `MERGE (r:Root {name})`. -/
def importRoots (roots : List String) (s : GraphState) : GraphState :=
  (roots.filter (fun r => r ≠ "")).foldl
    (fun s r => { s with rootKeys := insertOnce s.rootKeys r }) s

/-- One row of `create_word_query`: `MERGE (word:Word {word}) SET ...`. -/
def mergeWordNode (s : GraphState) (w : Word) : GraphState :=
  { s with wordKeys := insertOnce s.wordKeys w.word,
           wordProps := setKey s.wordProps w.word (wordPropsOf w) }

/-- One row of `grade_relation_query`: both `MATCH`es must succeed, then
`MERGE (word)-[:BELONGS_TO]->(grade)`. -/
def addGradeEdge (s : GraphState) (w : Word) : GraphState :=
  if w.word ∈ s.wordKeys ∧ w.grade ∈ s.gradeKeys then
    { s with belongsTo := insertOnce s.belongsTo (w.word, w.grade) }
  else s

/-- One row of `root_relation_query`: `WHERE w.root IS NOT NULL AND
w.root <> ''` plus both `MATCH`es, then `MERGE (word)-[:HAS_ROOT]->(root)`. -/
def addRootEdge (s : GraphState) (w : Word) : GraphState :=
  if w.root ≠ "" ∧ w.word ∈ s.wordKeys ∧ w.root ∈ s.rootKeys then
    { s with hasRoot := insertOnce s.hasRoot (w.word, w.root) }
  else s

/-- Model of `import_words`: node pass, then grade-edge pass, then root-edge pass
(the Python batching by 100 preserves row order, so it is one fold). -/
def importWords (ws : List Word) (s : GraphState) : GraphState :=
  (ws.filter (fun w => w.root ≠ "")).foldl addRootEdge
    (ws.foldl addGradeEdge (ws.foldl mergeWordNode s))

/-- All index-ordered pairs `(l[i], l[j])` with `i < j`. -/
def pairsOf {α : Type} : List α → List (α × α)
  | [] => []
  | x :: xs => (xs.map (fun y => (x, y))) ++ pairsOf xs

/-- The body of the query in `create_same_root_relations`, over given word
nodes (in id order), root nodes and `HAS_ROOT` edges: all rows
`(w1)-[:HAS_ROOT]->(r)<-[:HAS_ROOT]-(w2)` with `id(w1) < id(w2)`. -/
def candOf (wk rk : List String) (hr : List (String × String)) :
    List (String × String × String) :=
  (pairsOf wk).flatMap
    (fun p =>
      (rk.filter (fun r => (p.1, r) ∈ hr ∧ (p.2, r) ∈ hr)).map
        (fun r => (p.1, p.2, r)))

/-- The rows matched by `create_same_root_relations` in state `s`; key-list
position stands in for `id()`. -/
def sameRootCandidates (s : GraphState) : List (String × String × String) :=
  candOf s.wordKeys s.rootKeys s.hasRoot

/-- Model of `create_same_root_relations`: `MERGE (w1)-[:SAME_ROOT {root}]->(w2)`
for every matched row. -/
def createSameRootRelations (s : GraphState) : GraphState :=
  { s with sameRoot := (sameRootCandidates s).foldl insertOnce s.sameRoot }

/-- Model of `parser.get_all_roots()`: the distinct non-empty roots of the entries. -/
def rootsOf (ws : List Word) : List String :=
  ((ws.map (fun w => w.root)).filter (fun r => r ≠ "")).dedup

/-- The ingestion load of `main()` after `clear_database`: grades, roots,
words with their relationships, then the derived co-root relationships. -/
def loadGraph (ws : List Word) (s : GraphState) : GraphState :=
  createSameRootRelations (importWords ws (importRoots (rootsOf ws) (importGrades s)))

/-! ## Query service (`app.py`)

Every method acquires a session via `Neo4jConnection.get_session`, which
returns `None` when the connection cannot be established; `conn : Option
GraphState` models this.  The read methods run their query without an
exception handler, so a failure raised by `session.run` (modelled by
`runOk = false`) propagates as `Except.error`; `delete_user`,
`delete_all_users`, `reset_user_data` and `set_parent_password` wrap the
run in `try/except` and return `False` instead. -/

/-- The `floor_grade_map` dict in `get_words_for_floor`, including the
`.get(floor, ["7年级上册"])` default. -/
def floor_grade_map (floor : Nat) : List String :=
  match floor with
  | 1 => ["7年级上册"]
  | 2 => ["7年级上册", "7年级下册"]
  | 3 => ["7年级下册"]
  | 4 => ["8年级上册"]
  | 5 => ["8年级上册", "8年级下册"]
  | 6 => ["8年级下册"]
  | 7 => ["9年级"]
  | 8 => ["9年级"]
  | 9 => ["9年级"]
  | _ => ["7年级上册"]

/-- One record returned by the floor-words query. -/
structure FloorRow where
  word : String
  phonetic : String
  definition : String
  pos : String
  grade : String
deriving Repr, DecidableEq

/-- The rows matched by the query in `get_words_for_floor` before
`ORDER BY rand() LIMIT $limit`:
`MATCH (w:Word)-[:BELONGS_TO]->(g:Grade) WHERE g.name IN $grades AND
w.is_phrase = false`. -/
def floorRowsQ (s : GraphState) (grades : List String) : List FloorRow :=
  s.belongsTo.filterMap
    (fun e =>
      match s.wordProps e.1 with
      | some p =>
        if e.1 ∈ s.wordKeys ∧ e.2 ∈ s.gradeKeys ∧ e.2 ∈ grades ∧
            p.is_phrase = false then
          some ⟨e.1, p.phonetic, p.definition, p.pos, e.2⟩
        else none
      | none => none)

/-- Model of `WordGame.get_words_for_floor`. -/
def get_words_for_floor (conn : Option GraphState) (runOk : Bool)
    (shuffle : List FloorRow → List FloorRow) (floor : Nat) (limit : Nat) :
    Except Unit (List FloorRow) :=
  match conn with
  | none => .ok []
  | some s =>
    if runOk then
      .ok ((shuffle (floorRowsQ s (floor_grade_map floor))).take limit)
    else .error ()

/-- The `DISTINCT` definition pool of `get_random_definitions` before
`ORDER BY rand() LIMIT $count`: definitions of `Word` nodes that differ
from the correct one.  Word definitions are strings set by `import_words`,
so `w.definition IS NOT NULL` always holds; nothing excludes `""`. -/
def definitionsPool (s : GraphState) (correct : String) : List String :=
  ((s.wordKeys.filterMap
      (fun k => (s.wordProps k).map (fun p => p.definition))).filter
    (fun d => d ≠ correct)).dedup

/-- Model of `WordGame.get_random_definitions`. -/
def get_random_definitions (conn : Option GraphState) (runOk : Bool)
    (shuffle : List String → List String) (correct : String) (count : Nat) :
    Except Unit (List String) :=
  match conn with
  | none => .ok []
  | some s =>
    if runOk then .ok ((shuffle (definitionsPool s correct)).take count)
    else .error ()

/-- Model of `WordGame.get_words_by_root`: word, definition and phonetic of every
word with a `HAS_ROOT` edge to the named root. -/
def get_words_by_root (conn : Option GraphState) (runOk : Bool)
    (root : String) : Except Unit (List (String × String × String)) :=
  match conn with
  | none => .ok []
  | some s =>
    if runOk then
      .ok (s.hasRoot.filterMap
        (fun e =>
          if e.2 = root ∧ root ∈ s.rootKeys ∧ e.1 ∈ s.wordKeys then
            (s.wordProps e.1).map (fun p => (e.1, p.definition, p.phonetic))
          else none))
    else .error ()

/-- Model of `WordGame.get_all_roots` (the root catalog): roots with at least two
member words, with their member counts, sorted by count descending. -/
def get_all_roots (conn : Option GraphState) (runOk : Bool) :
    Except Unit (List (String × Nat)) :=
  match conn with
  | none => .ok []
  | some s =>
    if runOk then
      .ok (((s.rootKeys.map
          (fun r =>
            (r, (s.wordKeys.filter (fun w => (w, r) ∈ s.hasRoot)).length))).filter
          (fun rc => 2 ≤ rc.2)).mergeSort (fun a b => b.2 ≤ a.2))
    else .error ()

/-- One record of the user queries (the fields `RETURN`ed by
`get_all_users` / `get_user_by_id` / `get_top_students`). -/
structure UserRecord where
  user_id : String
  total_questions : Option Int
  correct_answers : Option Int
  score : Option Int
  current_floor : Option Int
  mastered_count : Option Int
  wrong_count : Option Int
  last_active : Option Nat
deriving Repr, DecidableEq

/-- The record projection shared by the user queries. -/
def toUserRecord (u : UserNode) : UserRecord :=
  { user_id := u.id, total_questions := u.total_questions,
    correct_answers := u.correct_answers, score := u.score,
    current_floor := u.current_floor, mastered_count := u.mastered_count,
    wrong_count := u.wrong_count, last_active := u.last_active }

/-- Model of `get_top_students` (the leaderboard): users with a non-null score,
sorted by score descending, top `limit`. -/
def get_top_students (conn : Option GraphState) (runOk : Bool)
    (limit : Nat) : Except Unit (List UserRecord) :=
  match conn with
  | none => .ok []
  | some s =>
    if runOk then
      .ok ((((s.users.filter (fun u => u.score ≠ none)).map
          toUserRecord).mergeSort
            (fun a b => a.score.getD 0 ≥ b.score.getD 0)).take limit)
    else .error ()

/-- Model of `WordGame.get_user_by_id`. -/
def get_user_by_id (conn : Option GraphState) (runOk : Bool)
    (uid : String) : Except Unit (Option UserRecord) :=
  match conn with
  | none => .ok none
  | some s =>
    if runOk then .ok ((s.users.find? (fun u => u.id = uid)).map toUserRecord)
    else .error ()

/-- The stats record of `get_database_stats`. -/
structure DBStats where
  total_words : Nat
  by_grade : List (String × Nat)
deriving Repr, DecidableEq

/-- Model of `WordGame.get_database_stats`: word total and per-grade counts (grades
with no words produce no row). -/
def get_database_stats (conn : Option GraphState) (runOk : Bool) :
    Except Unit DBStats :=
  match conn with
  | none => .ok ⟨0, []⟩
  | some s =>
    if runOk then
      .ok ⟨s.wordKeys.length,
        (s.gradeKeys.map
            (fun g =>
              (g, (s.belongsTo.filter (fun e => e.2 = g)).length))).filter
          (fun gc => 1 ≤ gc.2)⟩
    else .error ()

/-! ### User-record writes -/

/-- The `SET` clause of `reset_user_data` applied to the store: zero the
counters, floor back to 1, refresh `last_active` on the matched user. -/
def resetApply (s : GraphState) (uid : String) (now : Nat) : GraphState :=
  { s with users := s.users.map (fun u =>
      if u.id = uid then
        { u with total_questions := some 0, correct_answers := some 0,
                 score := some 0, current_floor := some 1,
                 mastered_count := some 0, wrong_count := some 0,
                 last_active := some now }
      else u) }

/-- Model of `WordGame.reset_user_data` (wrapped in `try/except`, returns a flag). -/
def reset_user_data (conn : Option GraphState) (runOk : Bool)
    (uid : String) (now : Nat) : Bool × Option GraphState :=
  match conn with
  | none => (false, none)
  | some s => if runOk then (true, some (resetApply s uid now)) else (false, some s)

/-- Model of `WordGame.delete_user`: `MATCH (u:User {id}) DELETE u`.  The schema
never attaches a relationship to a `User` node, so the plain `DELETE`
cannot fail on dangling relationships. -/
def delete_user (conn : Option GraphState) (runOk : Bool) (uid : String) :
    Bool × Option GraphState :=
  match conn with
  | none => (false, none)
  | some s =>
    if runOk then
      (true, some { s with users := s.users.filter (fun u => u.id ≠ uid) })
    else (false, some s)

/-- Model of `WordGame.delete_all_users`: `MATCH (u:User) DELETE u`. -/
def delete_all_users (conn : Option GraphState) (runOk : Bool) :
    Bool × Option GraphState :=
  match conn with
  | none => (false, none)
  | some s =>
    if runOk then (true, some { s with users := [] }) else (false, some s)

/-- Model of `WordGame.set_parent_password`: `MERGE (u:User {id}) SET
u.parent_password = $password` (creates a bare node when absent). -/
def set_parent_password (conn : Option GraphState) (runOk : Bool)
    (uid : String) (pw : String) : Bool × Option GraphState :=
  match conn with
  | none => (false, none)
  | some s =>
    if runOk then
      (true, some
        { s with users :=
            if s.users.any (fun u => u.id = uid) then
              s.users.map (fun u =>
                if u.id = uid then { u with parent_password := some pw } else u)
            else s.users ++ [{ id := uid, parent_password := some pw }] })
    else (false, some s)

/-- Model of `WordGame.get_parent_password`: `if result and result["password"]` —
returns `None` when the user is absent, the property is null, or the
stored string is empty (falsy). -/
def get_parent_password (conn : Option GraphState) (runOk : Bool)
    (uid : String) : Except Unit (Option String) :=
  match conn with
  | none => .ok none
  | some s =>
    if runOk then
      .ok (match s.users.find? (fun u => u.id = uid) with
        | none => none
        | some u =>
          match u.parent_password with
          | none => none
          | some p => if p = "" then none else some p)
    else .error ()

/-- The constant `ADMIN_PASSWORDS["parent"]`, the built-in default parent password. -/
def defaultParentPassword : String := "admin666"

/-- The password check of `render_parent_login`: use the student-specific
parent password when one is set, else fall back to the default. -/
def parent_login_ok (conn : Option GraphState) (runOk : Bool)
    (student_id : String) (entered : String) : Except Unit Bool :=
  match get_parent_password conn runOk student_id with
  | .error e => .error e
  | .ok (some p) => .ok (entered = p)
  | .ok none => .ok (entered = defaultParentPassword)

/-! ### Prize management -/

/-- One entry of the list handed to `save_custom_prizes`. -/
structure PrizeInput where
  name : String
  description : String
  weight : Int
deriving Repr, DecidableEq

/-- The node a `CREATE` statement of `save_custom_prizes` produces. -/
def mkPrize (ptype : String) (p : PrizeInput) : PrizeNode :=
  { name := p.name, description := p.description, weight := p.weight,
    type := ptype }

/-- The store after the first `k` statements of `save_custom_prizes` have
committed: statement 1 is the type-scoped delete, statements `2 ..` create
the new prizes one by one.  Each `session.run` auto-commits on its own —
there is no surrounding transaction. -/
def replacePrizesSteps (s : GraphState) (ps : List PrizeInput)
    (ptype : String) (k : Nat) : GraphState :=
  match k with
  | 0 => s
  | Nat.succ j =>
    { s with prizes := (s.prizes.filter (fun p => p.type ≠ ptype)) ++
        ((ps.take j).map (mkPrize ptype)) }

/-- Model of `save_custom_prizes`: with a session, run the delete then one `CREATE`
per prize; `okSteps` is how many of those statements commit before a
connectivity failure (`okSteps ≥ ps.length + 1` means no failure, flag
`true`).  Without a session the function silently does nothing. -/
def save_custom_prizes (conn : Option GraphState) (ps : List PrizeInput)
    (ptype : String) (okSteps : Nat) : Option GraphState × Bool :=
  match conn with
  | none => (none, true)
  | some s =>
    if ps.length + 1 ≤ okSteps then
      (some (replacePrizesSteps s ps ptype (ps.length + 1)), true)
    else (some (replacePrizesSteps s ps ptype okSteps), false)

/-- A single property write, as a fold step over `(key, value)` rows. -/
def writeStep {β : Type} (f : String → Option β) (p : String × β) :
    String → Option β :=
  setKey f p.1 p.2

/-- The value the last row writing key `k` carries, if any. -/
def lastWrite {β : Type} : List (String × β) → String → Option β
  | [], _ => none
  | p :: l, k =>
    match lastWrite l k with
    | some b => some b
    | none => if p.1 = k then some p.2 else none

/-- The word-node keys after the node pass of `import_words`. -/
def wordKeysAfter (ws : List Word) (wk : List String) : List String :=
  (ws.map Word.word).foldl insertOnce wk

/-- The property rows the node pass of `import_words` writes. -/
def wordWrites (ws : List Word) : List (String × WordProps) :=
  ws.map (fun w => (w.word, wordPropsOf w))

/-- The `BELONGS_TO` edges the grade pass creates, given which word and
grade nodes exist. -/
def gradeEdges (ws : List Word) (wk gk : List String) :
    List (String × String) :=
  ws.filterMap
    (fun w =>
      if w.word ∈ wk ∧ w.grade ∈ gk then some (w.word, w.grade) else none)

/-- The `HAS_ROOT` edges the root pass creates, given which word and root
nodes exist. -/
def rootEdges (ws : List Word) (wk rk : List String) :
    List (String × String) :=
  ws.filterMap
    (fun w =>
      if w.root ≠ "" ∧ w.word ∈ wk ∧ w.root ∈ rk then some (w.word, w.root)
      else none)

/-- Model of `get_statistics`: node counts for `Word`, `Grade`,
`Root` and edge counts for `BELONGS_TO`, `HAS_ROOT`, `SAME_ROOT`. -/
def get_statistics (s : GraphState) : Nat × Nat × Nat × Nat × Nat × Nat :=
  (s.wordKeys.length, s.gradeKeys.length, s.rootKeys.length,
   s.belongsTo.length, s.hasRoot.length, s.sameRoot.length)

/-- The graph `main()` produces: a cleared store then the full load. -/
def ingestedState (ws : List Word) : GraphState := loadGraph ws emptyState

/-- The member words of a root: words with a `HAS_ROOT` edge to it. -/
def memberWords (s : GraphState) (r : String) : List String :=
  s.wordKeys.filter (fun w => (w, r) ∈ s.hasRoot)

/-! ### Concrete sample data -/

/-- A word whose parsed definition is the empty string. -/
def emptyDefEntry : Word := { word := "x", definition := "" }

/-- A pre-existing parent prize. -/
def oldParentPrize : PrizeNode :=
  { name := "old", description := "d", weight := 10, type := "parent" }

/-- A store holding one configured parent prize. -/
def prizeStateC7 : GraphState := { emptyState with prizes := [oldParentPrize] }

/-- Two replacement prizes handed to `save_custom_prizes`. -/
def newPrizeInputs : List PrizeInput := [⟨"p1", "d1", 1⟩, ⟨"p2", "d2", 2⟩]

/-- A user with accumulated gameplay data and a parent password. -/
def userC8 : UserNode :=
  { id := "stu", total_questions := some 20, correct_answers := some 15,
    score := some 500, current_floor := some 7, mastered_count := some 5,
    wrong_count := some 3, last_active := some 100,
    parent_password := some "pw" }

/-- A store holding that one user. -/
def userStateC8 : GraphState := { emptyState with users := [userC8] }

/-- A user whose parent password was set to the empty string. -/
def emptyPwUser : UserNode := { id := "kid", parent_password := some "" }

/-- A store holding that one user. -/
def emptyPwState : GraphState := { emptyState with users := [emptyPwUser] }

/-! ## Merge-semantics lemmas -/

theorem mem_insertOnce_iff {α : Type} [DecidableEq α] {l : List α} {a b : α} :
    b ∈ insertOnce l a ↔ b ∈ l ∨ b = a := by
  by_cases h : a ∈ l
  · rw [insertOnce, if_pos h]
    constructor
    · exact fun hb => Or.inl hb
    · rintro (hb | rfl)
      · exact hb
      · exact h
  · rw [insertOnce, if_neg h]
    simp [List.mem_append]

theorem insertOnce_eq_of_mem {α : Type} [DecidableEq α] {l : List α} {a : α}
    (h : a ∈ l) : insertOnce l a = l := by
  simp [insertOnce, h]

theorem mem_insertOnce_self {α : Type} [DecidableEq α] (l : List α) (a : α) :
    a ∈ insertOnce l a :=
  mem_insertOnce_iff.mpr (Or.inr rfl)

theorem nodup_insertOnce {α : Type} [DecidableEq α] {l : List α} (a : α)
    (h : l.Nodup) : (insertOnce l a).Nodup := by
  by_cases ha : a ∈ l
  · rw [insertOnce, if_pos ha]; exact h
  · rw [insertOnce, if_neg ha]
    simp [List.nodup_append, h, ha]

theorem foldl_insertOnce_eq_of_subset {α : Type} [DecidableEq α] :
    ∀ {xs l : List α}, (∀ a ∈ xs, a ∈ l) → xs.foldl insertOnce l = l := by
  intro xs
  induction xs with
  | nil => intro l _; rfl
  | cons x xs ih =>
    intro l h
    rw [List.foldl_cons, insertOnce_eq_of_mem (h x (by simp))]
    exact ih (fun a ha => h a (by simp [ha]))

theorem mem_foldl_insertOnce_init {α : Type} [DecidableEq α] :
    ∀ {xs l : List α} {b : α}, b ∈ l → b ∈ xs.foldl insertOnce l := by
  intro xs
  induction xs with
  | nil => intro l b hb; exact hb
  | cons x xs ih =>
    intro l b hb
    rw [List.foldl_cons]
    exact ih (mem_insertOnce_iff.mpr (Or.inl hb))

theorem mem_foldl_insertOnce_left {α : Type} [DecidableEq α] :
    ∀ {xs l : List α} {a : α}, a ∈ xs → a ∈ xs.foldl insertOnce l := by
  intro xs
  induction xs with
  | nil => intro l a ha; cases ha
  | cons x xs ih =>
    intro l a ha
    rw [List.foldl_cons]
    rcases List.mem_cons.mp ha with rfl | ha
    · exact mem_foldl_insertOnce_init (mem_insertOnce_self l a)
    · exact ih ha

theorem mem_foldl_insertOnce_iff {α : Type} [DecidableEq α] :
    ∀ {xs l : List α} {b : α}, b ∈ xs.foldl insertOnce l ↔ b ∈ l ∨ b ∈ xs := by
  intro xs
  induction xs with
  | nil => intro l b; simp
  | cons x xs ih =>
    intro l b
    rw [List.foldl_cons, ih, mem_insertOnce_iff]
    constructor
    · rintro ((h | rfl) | h)
      · exact Or.inl h
      · exact Or.inr (List.mem_cons_self _ _)
      · exact Or.inr (List.mem_cons_of_mem _ h)
    · rintro (h | h)
      · exact Or.inl (Or.inl h)
      · rcases List.mem_cons.mp h with rfl | h
        · exact Or.inl (Or.inr rfl)
        · exact Or.inr h

theorem nodup_foldl_insertOnce {α : Type} [DecidableEq α] :
    ∀ {xs l : List α}, l.Nodup → (xs.foldl insertOnce l).Nodup := by
  intro xs
  induction xs with
  | nil => intro l h; exact h
  | cons x xs ih => intro l h; rw [List.foldl_cons]; exact ih (nodup_insertOnce x h)

theorem foldl_writeStep_eval {β : Type} :
    ∀ (l : List (String × β)) (f : String → Option β) (k : String),
      (l.foldl writeStep f) k = (lastWrite l k).or (f k) := by
  intro l
  induction l with
  | nil => intro f k; rfl
  | cons p l ih =>
    intro f k
    rw [List.foldl_cons, ih]
    cases h : lastWrite l k with
    | some b => simp [lastWrite, h]
    | none =>
      simp only [lastWrite, h]
      by_cases hk : k = p.1
      · subst hk; simp [writeStep, setKey]
      · have hk2 : ¬ p.1 = k := fun e => hk e.symm
        simp [writeStep, setKey, hk, hk2]

theorem foldl_writeStep_idem {β : Type} (l : List (String × β))
    (f : String → Option β) :
    l.foldl writeStep (l.foldl writeStep f) = l.foldl writeStep f := by
  funext k
  rw [foldl_writeStep_eval, foldl_writeStep_eval]
  cases lastWrite l k <;> rfl

/-! ## Characterization of the loader -/

theorem importGrades_eq (s : GraphState) :
    importGrades s =
      { s with
        gradeKeys := (gradeTable.map Prod.fst).foldl insertOnce s.gradeKeys,
        gradeProps := gradeTable.foldl writeStep s.gradeProps } := by
  show gradeTable.foldl _ s = _
  generalize gradeTable = t
  induction t generalizing s with
  | nil => rfl
  | cons p t ih => rw [List.foldl_cons, ih]; rfl

theorem importRoots_eq (roots : List String) (s : GraphState) :
    importRoots roots s =
      { s with
        rootKeys := (roots.filter (fun r => r ≠ "")).foldl insertOnce s.rootKeys } := by
  show (roots.filter _).foldl _ s = _
  generalize roots.filter _ = t
  induction t generalizing s with
  | nil => rfl
  | cons r t ih => rw [List.foldl_cons, ih]; rfl

theorem foldl_mergeWordNode_eq (ws : List Word) (s : GraphState) :
    ws.foldl mergeWordNode s =
      { s with wordKeys := wordKeysAfter ws s.wordKeys,
               wordProps := (wordWrites ws).foldl writeStep s.wordProps } := by
  induction ws generalizing s with
  | nil => rfl
  | cons w ws ih => rw [List.foldl_cons, ih]; rfl

theorem foldl_addGradeEdge_eq (ws : List Word) (s : GraphState) :
    ws.foldl addGradeEdge s =
      { s with belongsTo :=
          (gradeEdges ws s.wordKeys s.gradeKeys).foldl insertOnce s.belongsTo } := by
  induction ws generalizing s with
  | nil => rfl
  | cons w ws ih =>
    rw [List.foldl_cons]
    by_cases h : w.word ∈ s.wordKeys ∧ w.grade ∈ s.gradeKeys
    · rw [show addGradeEdge s w =
          { s with belongsTo := insertOnce s.belongsTo (w.word, w.grade) } by
            rw [addGradeEdge, if_pos h], ih]
      simp only [gradeEdges, List.filterMap_cons, if_pos h, List.foldl_cons]
    · rw [show addGradeEdge s w = s by rw [addGradeEdge, if_neg h], ih]
      simp only [gradeEdges, List.filterMap_cons, if_neg h]

theorem foldl_addRootEdge_eq (ws : List Word) (s : GraphState) :
    ws.foldl addRootEdge s =
      { s with hasRoot :=
          (rootEdges ws s.wordKeys s.rootKeys).foldl insertOnce s.hasRoot } := by
  induction ws generalizing s with
  | nil => rfl
  | cons w ws ih =>
    rw [List.foldl_cons]
    by_cases h : w.root ≠ "" ∧ w.word ∈ s.wordKeys ∧ w.root ∈ s.rootKeys
    · rw [show addRootEdge s w =
          { s with hasRoot := insertOnce s.hasRoot (w.word, w.root) } by
            rw [addRootEdge, if_pos h], ih]
      simp only [rootEdges, List.filterMap_cons, if_pos h, List.foldl_cons]
    · rw [show addRootEdge s w = s by rw [addRootEdge, if_neg h], ih]
      simp only [rootEdges, List.filterMap_cons, if_neg h]

theorem importWords_eq (ws : List Word) (s : GraphState) :
    importWords ws s =
      { s with
        wordKeys := wordKeysAfter ws s.wordKeys,
        wordProps := (wordWrites ws).foldl writeStep s.wordProps,
        belongsTo :=
          (gradeEdges ws (wordKeysAfter ws s.wordKeys) s.gradeKeys).foldl
            insertOnce s.belongsTo,
        hasRoot :=
          (rootEdges (ws.filter (fun w => w.root ≠ ""))
              (wordKeysAfter ws s.wordKeys) s.rootKeys).foldl
            insertOnce s.hasRoot } := by
  unfold importWords
  rw [foldl_mergeWordNode_eq, foldl_addGradeEdge_eq, foldl_addRootEdge_eq]

theorem createSameRootRelations_eq (s : GraphState) :
    createSameRootRelations s =
      { s with sameRoot :=
          (candOf s.wordKeys s.rootKeys s.hasRoot).foldl insertOnce s.sameRoot } :=
  rfl

/-- The loader in one explicit normal form. -/
theorem loadGraph_eq (ws : List Word) (s : GraphState) :
    loadGraph ws s =
      { wordKeys := wordKeysAfter ws s.wordKeys,
        wordProps := (wordWrites ws).foldl writeStep s.wordProps,
        gradeKeys := (gradeTable.map Prod.fst).foldl insertOnce s.gradeKeys,
        gradeProps := gradeTable.foldl writeStep s.gradeProps,
        rootKeys :=
          ((rootsOf ws).filter (fun r => r ≠ "")).foldl insertOnce s.rootKeys,
        belongsTo :=
          (gradeEdges ws (wordKeysAfter ws s.wordKeys)
              ((gradeTable.map Prod.fst).foldl insertOnce s.gradeKeys)).foldl
            insertOnce s.belongsTo,
        hasRoot :=
          (rootEdges (ws.filter (fun w => w.root ≠ ""))
              (wordKeysAfter ws s.wordKeys)
              (((rootsOf ws).filter (fun r => r ≠ "")).foldl insertOnce
                s.rootKeys)).foldl
            insertOnce s.hasRoot,
        sameRoot := (candOf (wordKeysAfter ws s.wordKeys)
            (((rootsOf ws).filter (fun r => r ≠ "")).foldl insertOnce s.rootKeys)
            ((rootEdges (ws.filter (fun w => w.root ≠ ""))
                (wordKeysAfter ws s.wordKeys)
                (((rootsOf ws).filter (fun r => r ≠ "")).foldl insertOnce
                  s.rootKeys)).foldl
              insertOnce s.hasRoot)).foldl insertOnce s.sameRoot,
        users := s.users,
        prizes := s.prizes } := by
  unfold loadGraph
  rw [importGrades_eq, importRoots_eq, importWords_eq, createSameRootRelations_eq]

theorem foldl_insertOnce_idem {α : Type} [DecidableEq α] (xs l : List α) :
    xs.foldl insertOnce (xs.foldl insertOnce l) = xs.foldl insertOnce l :=
  foldl_insertOnce_eq_of_subset fun _ ha => mem_foldl_insertOnce_left ha

theorem loadGraph_idempotent (ws : List Word) (s : GraphState) :
    loadGraph ws (loadGraph ws s) = loadGraph ws s := by
  have hWK : wordKeysAfter ws (wordKeysAfter ws s.wordKeys) =
      wordKeysAfter ws s.wordKeys := foldl_insertOnce_idem _ _
  have hGK : (gradeTable.map Prod.fst).foldl insertOnce
      ((gradeTable.map Prod.fst).foldl insertOnce s.gradeKeys) =
      (gradeTable.map Prod.fst).foldl insertOnce s.gradeKeys :=
    foldl_insertOnce_idem _ _
  have hRK : ((rootsOf ws).filter (fun r => r ≠ "")).foldl insertOnce
      (((rootsOf ws).filter (fun r => r ≠ "")).foldl insertOnce s.rootKeys) =
      ((rootsOf ws).filter (fun r => r ≠ "")).foldl insertOnce s.rootKeys :=
    foldl_insertOnce_idem _ _
  rw [loadGraph_eq ws s, loadGraph_eq]
  simp only [GraphState.mk.injEq]
  refine ⟨hWK, foldl_writeStep_idem _ _, hGK, foldl_writeStep_idem _ _, hRK,
    ?_, ?_, ?_, trivial, trivial⟩
  · rw [hWK, hGK]; exact foldl_insertOnce_idem _ _
  · rw [hWK, hRK]; exact foldl_insertOnce_idem _ _
  · rw [hWK, hRK, foldl_insertOnce_idem]
    exact foldl_insertOnce_idem _ _

/-- C1: running the ingestion load (grade, root and word upserts plus the
derived `SAME_ROOT` pass) twice on an identical parsed entry list leaves
the graph in the same state as running it once; in particular the node
counts for `Word`, `Grade`, `Root` and the edge counts for `BELONGS_TO`,
`HAS_ROOT` and `SAME_ROOT` are identical after the second run. -/
theorem C1_ingestion_idempotent (ws : List Word) (s : GraphState) :
    loadGraph ws (loadGraph ws s) = loadGraph ws s ∧
    get_statistics (loadGraph ws (loadGraph ws s)) =
      get_statistics (loadGraph ws s) :=
  ⟨loadGraph_idempotent ws s, by rw [loadGraph_idempotent ws s]⟩

/-! ## Pair enumeration lemmas (for the derived `SAME_ROOT` edges) -/

theorem mem_of_mem_pairsOf {α : Type} :
    ∀ {l : List α} {a b : α}, (a, b) ∈ pairsOf l → a ∈ l ∧ b ∈ l := by
  intro l
  induction l with
  | nil => intro a b h; cases h
  | cons x xs ih =>
    intro a b h
    rcases List.mem_append.mp h with h | h
    · rcases List.mem_map.mp h with ⟨y, hy, he⟩
      cases he
      exact ⟨List.mem_cons_self _ _, List.mem_cons_of_mem _ hy⟩
    · exact ⟨List.mem_cons_of_mem _ (ih h).1, List.mem_cons_of_mem _ (ih h).2⟩

theorem pairsOf_nodup {α : Type} :
    ∀ {l : List α}, l.Nodup → (pairsOf l).Nodup := by
  intro l
  induction l with
  | nil => intro _; exact List.nodup_nil
  | cons x xs ih =>
    intro h
    rcases List.nodup_cons.mp h with ⟨hx, hxs⟩
    refine List.Nodup.append ?_ (ih hxs) ?_
    · exact (List.nodup_map_iff (fun a b e => congrArg Prod.snd e)).mpr hxs
    · intro p hp hq
      rcases List.mem_map.mp hp with ⟨y, _, he⟩
      cases he
      exact hx (mem_of_mem_pairsOf hq).1

theorem not_mem_pairsOf_self {α : Type} :
    ∀ {l : List α}, l.Nodup → ∀ a : α, (a, a) ∉ pairsOf l := by
  intro l
  induction l with
  | nil => intro _ a h; cases h
  | cons x xs ih =>
    intro h a ha
    rcases List.nodup_cons.mp h with ⟨hx, hxs⟩
    rcases List.mem_append.mp ha with h' | h'
    · rcases List.mem_map.mp h' with ⟨y, hy, he⟩
      cases he
      exact hx hy
    · exact ih hxs a h'

theorem pairsOf_asymm {α : Type} :
    ∀ {l : List α}, l.Nodup → ∀ {a b : α},
      (a, b) ∈ pairsOf l → (b, a) ∉ pairsOf l := by
  intro l
  induction l with
  | nil => intro _ a b h; cases h
  | cons x xs ih =>
    intro h a b hab hba
    rcases List.nodup_cons.mp h with ⟨hx, hxs⟩
    rcases List.mem_append.mp hab with h1 | h1
    · rcases List.mem_map.mp h1 with ⟨y, hy, he⟩
      cases he
      rcases List.mem_append.mp hba with h2 | h2
      · rcases List.mem_map.mp h2 with ⟨z, hz, he2⟩
        cases he2
        exact hx hz
      · exact hx (mem_of_mem_pairsOf h2).2
    · rcases List.mem_append.mp hba with h2 | h2
      · rcases List.mem_map.mp h2 with ⟨z, hz, he2⟩
        cases he2
        exact hx (mem_of_mem_pairsOf h1).2
      · exact ih hxs h1 h2

theorem pairsOf_total {α : Type} :
    ∀ {l : List α} {a b : α}, a ∈ l → b ∈ l → a ≠ b →
      (a, b) ∈ pairsOf l ∨ (b, a) ∈ pairsOf l := by
  intro l
  induction l with
  | nil => intro a b ha; cases ha
  | cons x xs ih =>
    intro a b ha hb hne
    by_cases hax : a = x
    · subst hax
      have hbxs : b ∈ xs := by
        rcases List.mem_cons.mp hb with h | h
        · exact absurd h.symm hne
        · exact h
      exact Or.inl (List.mem_append.mpr
        (Or.inl (List.mem_map.mpr ⟨b, hbxs, rfl⟩)))
    · by_cases hbx : b = x
      · subst hbx
        have haxs : a ∈ xs := by
          rcases List.mem_cons.mp ha with h | h
          · exact absurd h hax
          · exact h
        exact Or.inr (List.mem_append.mpr
          (Or.inl (List.mem_map.mpr ⟨a, haxs, rfl⟩)))
      · have haxs : a ∈ xs := by
          rcases List.mem_cons.mp ha with h | h
          · exact absurd h hax
          · exact h
        have hbxs : b ∈ xs := by
          rcases List.mem_cons.mp hb with h | h
          · exact absurd h hbx
          · exact h
        rcases ih haxs hbxs hne with h | h
        · exact Or.inl (List.mem_append.mpr (Or.inr h))
        · exact Or.inr (List.mem_append.mpr (Or.inr h))

/-- Counting: the index-ordered pairs whose both components satisfy `p`
are exactly `C(n, 2)` many, `n` the number of elements satisfying `p`. -/
theorem length_filter_pairsOf {α : Type} (p : α → Bool) :
    ∀ l : List α,
      ((pairsOf l).filter (fun q => p q.1 && p q.2)).length =
        ((l.filter p).length).choose 2 := by
  intro l
  induction l with
  | nil => rfl
  | cons x xs ih =>
    show ((xs.map (fun y => (x, y)) ++ pairsOf xs).filter _).length = _
    rw [List.filter_append, List.length_append, ih, List.filter_map,
      List.length_map]
    by_cases hx : p x = true
    · have h1 : xs.filter ((fun q : α × α => p q.1 && p q.2) ∘
          (fun y => (x, y))) = xs.filter p := by
        apply List.filter_congr
        intro y _
        show (p x && p y) = p y
        rw [hx, Bool.true_and]
      rw [h1, List.filter_cons, if_pos hx, List.length_cons,
        Nat.choose_succ_succ, Nat.choose_one_right, Nat.add_comm]
    · have hx' : p x = false := Bool.eq_false_iff.mpr hx
      have h1 : xs.filter ((fun q : α × α => p q.1 && p q.2) ∘
          (fun y => (x, y))) = [] := by
        apply List.filter_eq_nil_iff.mpr
        intro y _
        show ¬(p x && p y) = true
        rw [hx', Bool.false_and]
        exact Bool.false_ne_true
      rw [h1, List.filter_cons, if_neg (by simp [hx'])]
      simp

theorem foldl_insertOnce_append {α : Type} [DecidableEq α] :
    ∀ {xs l : List α}, xs.Nodup → (∀ a ∈ xs, a ∉ l) →
      xs.foldl insertOnce l = l ++ xs := by
  intro xs
  induction xs with
  | nil => intro l _ _; simp
  | cons x xs ih =>
    intro l h hd
    rcases List.nodup_cons.mp h with ⟨hx, hxs⟩
    rw [List.foldl_cons, insertOnce, if_neg (hd x (List.mem_cons_self _ _))]
    rw [ih hxs]
    · simp
    · intro a ha hmem
      rcases List.mem_append.mp hmem with hmem | hmem
      · exact hd a (List.mem_cons_of_mem _ ha) hmem
      · rcases List.mem_singleton.mp hmem with rfl
        exact hx ha

theorem foldl_insertOnce_nil {α : Type} [DecidableEq α] {xs : List α}
    (h : xs.Nodup) : xs.foldl insertOnce [] = xs := by
  simpa using foldl_insertOnce_append h (by simp)

theorem mem_foldl_insertOnce_nil {α : Type} [DecidableEq α] {xs : List α}
    {a : α} : a ∈ xs.foldl insertOnce [] ↔ a ∈ xs := by
  simpa using (@mem_foldl_insertOnce_iff α _ xs [] a)

theorem candOf_nodup {wk rk : List String} (hwk : wk.Nodup) (hrk : rk.Nodup)
    (hr : List (String × String)) : (candOf wk rk hr).Nodup := by
  unfold candOf
  rw [List.nodup_flatMap]
  constructor
  · intro p _
    refine (List.nodup_map_iff ?_).mpr (hrk.filter _)
    intro a b e
    exact congrArg (fun t : String × String × String => t.2.2) e
  · apply List.Pairwise.imp ?_ (pairsOf_nodup hwk)
    intro p q hne e hep heq
    rcases List.mem_map.mp hep with ⟨r1, _, he1⟩
    rcases List.mem_map.mp heq with ⟨r2, _, he2⟩
    subst he1
    apply hne
    have h1 : q.1 = p.1 := congrArg (fun t : String × String × String => t.1) he2
    have h2 : q.2 = p.2 :=
      congrArg (fun t : String × String × String => t.2.1) he2
    exact Prod.ext h1.symm h2.symm

theorem mem_candOf {wk rk : List String} {hr : List (String × String)}
    {a b r : String} :
    (a, b, r) ∈ candOf wk rk hr ↔
      (a, b) ∈ pairsOf wk ∧ r ∈ rk ∧ (a, r) ∈ hr ∧ (b, r) ∈ hr := by
  unfold candOf
  rw [List.mem_flatMap]
  constructor
  · rintro ⟨p, hp, hmem⟩
    rcases List.mem_map.mp hmem with ⟨r', hr', he⟩
    have h1 : p.1 = a := congrArg (fun t : String × String × String => t.1) he
    have h2 : p.2 = b :=
      congrArg (fun t : String × String × String => t.2.1) he
    have h3 : r' = r := congrArg (fun t : String × String × String => t.2.2) he
    subst h1; subst h2; subst h3
    rcases List.mem_filter.mp hr' with ⟨hrk2, hcond⟩
    have hc := of_decide_eq_true hcond
    exact ⟨hp, hrk2, hc.1, hc.2⟩
  · rintro ⟨hpair, hrk2, h1, h2⟩
    exact ⟨(a, b), hpair,
      List.mem_map.mpr ⟨r, List.mem_filter.mpr ⟨hrk2, by simp [h1, h2]⟩, rfl⟩⟩

theorem mem_rootEdges {ws : List Word} {wk rk : List String}
    {e : String × String} (h : e ∈ rootEdges ws wk rk) :
    e.2 ∈ rk ∧ e.1 ∈ wk := by
  unfold rootEdges at h
  rcases List.mem_filterMap.mp h with ⟨w, _, he⟩
  by_cases hc : w.root ≠ "" ∧ w.word ∈ wk ∧ w.root ∈ rk
  · rw [if_pos hc] at he
    cases he
    exact ⟨hc.2.2, hc.2.1⟩
  · rw [if_neg hc] at he
    cases he

theorem length_filter_key {q : String → Bool} :
    ∀ {rk : List String}, rk.Nodup → ∀ r : String,
      (rk.filter (fun x => q x && decide (x = r))).length =
        if q r = true ∧ r ∈ rk then 1 else 0 := by
  intro rk
  induction rk with
  | nil => intro _ r; simp
  | cons y ys ih =>
    intro h r
    rcases List.nodup_cons.mp h with ⟨hy, hys⟩
    by_cases hyr : y = r
    · subst hyr
      have htail : ys.filter (fun x => q x && decide (x = y)) = [] := by
        apply List.filter_eq_nil_iff.mpr
        intro x hx hcontra
        have hxy : x = y := by
          simp only [Bool.and_eq_true, decide_eq_true_eq] at hcontra
          exact hcontra.2
        exact hy (hxy ▸ hx)
      by_cases hq : q y = true
      · simp [List.filter_cons, hq, htail]
      · have hq' : q y = false := Bool.eq_false_iff.mpr hq
        simp [List.filter_cons, hq', htail]
    · have hry : ¬ r = y := fun e => hyr e.symm
      have hcond : (q y && decide (y = r)) = false := by
        rw [decide_eq_false hyr, Bool.and_false]
      simp [List.filter_cons, hcond, ih hys r, hry]

theorem candOf_filter_length {WK RK : List String}
    {HR : List (String × String)} (hRK : RK.Nodup) (r : String) :
    ((candOf WK RK HR).filter (fun e => decide (e.2.2 = r))).length =
      ((pairsOf WK).filter
        (fun p => decide (r ∈ RK ∧ (p.1, r) ∈ HR ∧ (p.2, r) ∈ HR))).length := by
  unfold candOf
  induction pairsOf WK with
  | nil => rfl
  | cons p ps ih =>
    rw [List.flatMap_cons, List.filter_append, List.length_append, ih,
      List.filter_cons, List.filter_map, List.length_map, List.filter_filter]
    have hinner := @length_filter_key
      (fun x => decide ((p.1, x) ∈ HR ∧ (p.2, x) ∈ HR)) RK hRK r
    have hcomp : (fun x => ((fun e : String × String × String =>
        decide (e.2.2 = r)) ∘ fun r' => (p.1, p.2, r')) x &&
          decide ((p.1, x) ∈ HR ∧ (p.2, x) ∈ HR)) =
        (fun x => decide ((p.1, x) ∈ HR ∧ (p.2, x) ∈ HR) && decide (x = r)) := by
      funext x
      show (decide (x = r) && _) = _
      rw [Bool.and_comm]
    rw [hcomp, hinner]
    by_cases hc : r ∈ RK ∧ (p.1, r) ∈ HR ∧ (p.2, r) ∈ HR
    · rw [if_pos ⟨by simp [hc.2.1, hc.2.2], hc.1⟩, if_pos (by simp [hc])]
      simp [Nat.add_comm]
    · have hsplit : ¬((decide ((p.1, r) ∈ HR ∧ (p.2, r) ∈ HR)) = true ∧
          r ∈ RK) := by
        rintro ⟨h1, h2⟩
        exact hc ⟨h2, of_decide_eq_true h1⟩
      rw [if_neg hsplit, if_neg (by simp [hc])]
      simp

/-- C2: after the loader derives the co-root relationships, for every root
`r` the `SAME_ROOT` edge set carrying `r` has exactly `C(n, 2)` edges, `n`
the number of member words of `r`; there are no self-edges, no duplicate
edges, no edge duplicated in the reverse direction, and every unordered
pair of distinct member words is connected. -/
theorem C2_same_root_exact_pairs (ws : List Word) (r : String) :
    ((ingestedState ws).sameRoot.filter (fun e => e.2.2 = r)).length =
      Nat.choose (memberWords (ingestedState ws) r).length 2 ∧
    (ingestedState ws).sameRoot.Nodup ∧
    (∀ a : String, (a, a, r) ∉ (ingestedState ws).sameRoot) ∧
    (∀ a b : String, (a, b, r) ∈ (ingestedState ws).sameRoot →
      (b, a, r) ∉ (ingestedState ws).sameRoot) ∧
    (∀ a b : String, a ∈ memberWords (ingestedState ws) r →
      b ∈ memberWords (ingestedState ws) r → a ≠ b →
      ((a, b, r) ∈ (ingestedState ws).sameRoot ∨
        (b, a, r) ∈ (ingestedState ws).sameRoot)) := by
  have hstate : ingestedState ws = _ := loadGraph_eq ws emptyState
  simp only [hstate, emptyState, memberWords]
  set WK := wordKeysAfter ws [] with hWKdef
  set RK := ((rootsOf ws).filter (fun r => r ≠ "")).foldl insertOnce
    ([] : List String) with hRKdef
  set HR := (rootEdges (ws.filter (fun w => w.root ≠ "")) WK RK).foldl
    insertOnce ([] : List (String × String)) with hHRdef
  have hwk : WK.Nodup := by
    rw [hWKdef]; exact nodup_foldl_insertOnce List.nodup_nil
  have hrk : RK.Nodup := by
    rw [hRKdef]; exact nodup_foldl_insertOnce List.nodup_nil
  have hcand : (candOf WK RK HR).Nodup := candOf_nodup hwk hrk HR
  have hSR : (candOf WK RK HR).foldl insertOnce [] = candOf WK RK HR :=
    foldl_insertOnce_nil hcand
  have hHRroot : ∀ {w : String}, (w, r) ∈ HR → r ∈ RK := by
    intro w hmem
    rw [hHRdef] at hmem
    exact (mem_rootEdges (mem_foldl_insertOnce_nil.mp hmem)).1
  rw [hSR]
  refine ⟨?_, hcand, ?_, ?_, ?_⟩
  · rw [candOf_filter_length hrk r]
    by_cases hrRK : r ∈ RK
    · have hcong : ∀ p ∈ pairsOf WK,
          decide (r ∈ RK ∧ (p.1, r) ∈ HR ∧ (p.2, r) ∈ HR) =
            ((fun w => decide ((w, r) ∈ HR)) p.1 &&
              (fun w => decide ((w, r) ∈ HR)) p.2) := by
        intro p _
        show decide (r ∈ RK ∧ (p.1, r) ∈ HR ∧ (p.2, r) ∈ HR) =
          (decide ((p.1, r) ∈ HR) && decide ((p.2, r) ∈ HR))
        rw [← Bool.decide_and]
        exact decide_eq_decide.mpr ⟨fun h => h.2, fun h => ⟨hrRK, h⟩⟩
      rw [List.filter_congr hcong]
      exact length_filter_pairsOf (fun w => decide ((w, r) ∈ HR)) WK
    · have h0 : (pairsOf WK).filter
          (fun p => decide (r ∈ RK ∧ (p.1, r) ∈ HR ∧ (p.2, r) ∈ HR)) = [] := by
        apply List.filter_eq_nil_iff.mpr
        intro p _
        simp only [decide_eq_true_eq]
        rintro ⟨h1, _⟩
        exact hrRK h1
      have hm : WK.filter (fun w => decide ((w, r) ∈ HR)) = [] := by
        apply List.filter_eq_nil_iff.mpr
        intro w _
        simp only [decide_eq_true_eq]
        intro hmem
        exact hrRK (hHRroot hmem)
      rw [h0, hm]
      rfl
  · intro a ha
    exact not_mem_pairsOf_self hwk a (mem_candOf.mp ha).1
  · intro a b hab hba
    exact pairsOf_asymm hwk (mem_candOf.mp hab).1 (mem_candOf.mp hba).1
  · intro a b ha hb hne
    rcases List.mem_filter.mp ha with ⟨ha1, ha2⟩
    rcases List.mem_filter.mp hb with ⟨hb1, hb2⟩
    have haH := of_decide_eq_true ha2
    have hbH := of_decide_eq_true hb2
    have hrRK : r ∈ RK := hHRroot haH
    rcases pairsOf_total ha1 hb1 hne with h | h
    · exact Or.inl (mem_candOf.mpr ⟨h, hrRK, haH, hbH⟩)
    · exact Or.inr (mem_candOf.mpr ⟨h, hrRK, hbH, haH⟩)

/-! ## Root-identification lemmas (`WordParser._identify_roots`) -/

theorem resolveOne_word (ps : List (String × String)) (later : List Word)
    (w : Word) : (resolveOne ps later w).word = w.word := by
  unfold resolveOne
  split
  · rfl
  · split <;> rfl

theorem resolveAll_length (ps : List (String × String)) :
    ∀ es : List Word, (resolveAll ps es).length = es.length := by
  intro es
  induction es with
  | nil => rfl
  | cons w ws ih => exact congrArg Nat.succ ih

theorem resolveAll_any (ps : List (String × String)) (m : String) :
    ∀ ws : List Word,
      ((resolveAll ps ws).any (fun v => lowerStr v.word = m)) =
        ws.any (fun v => lowerStr v.word = m) := by
  intro ws
  induction ws with
  | nil => rfl
  | cons w ws ih =>
    show ((resolveOne ps ws w :: resolveAll ps ws).any _) = _
    rw [List.any_cons, List.any_cons, ih, resolveOne_word]

theorem resolveAll_nil_ps : ∀ es : List Word,
    resolveAll ([] : List (String × String)) es = es := by
  intro es
  induction es with
  | nil => rfl
  | cons w ws ih =>
    show resolveOne [] ws w :: resolveAll [] ws = w :: ws
    rw [ih]
    congr 1
    unfold resolveOne
    split
    · rfl
    · rfl

theorem resolveAll_append_single_of_no_match (ps : List (String × String))
    (m lbl : String) :
    ∀ {ws : List Word},
      ws.any (fun v => lowerStr v.word = lowerStr m) = false →
      resolveAll (ps ++ [(m, lbl)]) ws = resolveAll ps ws := by
  intro ws
  induction ws with
  | nil => intro _; rfl
  | cons w ws ih =>
    intro h
    simp only [List.any_cons, Bool.or_eq_false_iff,
      decide_eq_false_iff_not] at h
    show resolveOne (ps ++ [(m, lbl)]) ws w :: resolveAll (ps ++ [(m, lbl)]) ws =
      resolveOne ps ws w :: resolveAll ps ws
    rw [ih h.2]
    congr 1
    unfold resolveOne
    split
    · rfl
    · have hms : ¬ lowerStr m = lowerStr w.word := fun e => h.1 e.symm
      have hfilter : (ps ++ [(m, lbl)]).filter
          (fun p => lowerStr p.1 = lowerStr w.word) =
          ps.filter (fun p => lowerStr p.1 = lowerStr w.word) := by
        rw [List.filter_append]
        have h0 : [(m, lbl)].filter
            (fun p => lowerStr p.1 = lowerStr w.word) = [] := by
          simp [hms]
        rw [h0, List.append_nil]
      rw [hfilter]

theorem assignLast_resolveAll (ps : List (String × String)) (m lbl : String) :
    ∀ es : List Word,
      assignLast (resolveAll ps es) m lbl = resolveAll (ps ++ [(m, lbl)]) es := by
  intro es
  induction es with
  | nil => rfl
  | cons w ws ih =>
    show assignLast (resolveOne ps ws w :: resolveAll ps ws) m lbl = _
    unfold assignLast
    rw [resolveAll_any]
    by_cases hb : ws.any (fun v => lowerStr v.word = lowerStr m) = true
    · rw [if_pos hb, ih]
      show resolveOne ps ws w :: resolveAll (ps ++ [(m, lbl)]) ws =
        resolveOne (ps ++ [(m, lbl)]) ws w :: resolveAll (ps ++ [(m, lbl)]) ws
      congr 1
      unfold resolveOne
      split
      · rfl
      · rename_i hg
        have hneq : ¬ lowerStr m = lowerStr w.word := by
          intro he
          rcases List.any_eq_true.mp hb with ⟨v, hv, hvm⟩
          have hv' : lowerStr v.word = lowerStr m := of_decide_eq_true hvm
          exact hg (List.any_eq_true.mpr
            ⟨v, hv, decide_eq_true (hv'.trans he)⟩)
        have hfilter : (ps ++ [(m, lbl)]).filter
            (fun p => lowerStr p.1 = lowerStr w.word) =
            ps.filter (fun p => lowerStr p.1 = lowerStr w.word) := by
          rw [List.filter_append]
          have h0 : [(m, lbl)].filter
              (fun p => lowerStr p.1 = lowerStr w.word) = [] := by
            simp [hneq]
          rw [h0, List.append_nil]
        rw [hfilter]
    · rw [if_neg hb]
      have hb' : ws.any (fun v => lowerStr v.word = lowerStr m) = false :=
        Bool.eq_false_iff.mpr hb
      by_cases hw : lowerStr w.word = lowerStr m
      · have hw2 : lowerStr (resolveOne ps ws w).word = lowerStr m := by
          rw [resolveOne_word]; exact hw
        rw [if_pos hw2]
        rw [show resolveAll (ps ++ [(m, lbl)]) (w :: ws) =
            resolveOne (ps ++ [(m, lbl)]) ws w ::
              resolveAll (ps ++ [(m, lbl)]) ws from rfl]
        rw [resolveAll_append_single_of_no_match ps m lbl hb']
        congr 1
        have hg : ws.any (fun v => lowerStr v.word = lowerStr w.word) = false := by
          rw [hw]
          exact hb'
        have hRhead : resolveOne (ps ++ [(m, lbl)]) ws w =
            { w with root := lbl } := by
          unfold resolveOne
          rw [if_neg (by simp [hg])]
          rw [List.filter_append]
          have hsingle : [(m, lbl)].filter
              (fun p => lowerStr p.1 = lowerStr w.word) = [(m, lbl)] := by
            simp [hw.symm]
          rw [hsingle, List.getLast?_concat]
        have hLhead : ({ resolveOne ps ws w with root := lbl } : Word) =
            { w with root := lbl } := by
          unfold resolveOne
          rw [if_neg (by simp [hg])]
          split <;> rfl
        rw [hRhead]
        exact hLhead
      · have hw2 : ¬ lowerStr (resolveOne ps ws w).word = lowerStr m := by
          rw [resolveOne_word]; exact hw
        rw [if_neg hw2]
        show resolveOne ps ws w :: resolveAll ps ws =
          resolveOne (ps ++ [(m, lbl)]) ws w ::
            resolveAll (ps ++ [(m, lbl)]) ws
        rw [resolveAll_append_single_of_no_match ps m lbl hb']
        congr 1
        unfold resolveOne
        split
        · rfl
        · have hneq : ¬ lowerStr m = lowerStr w.word := fun e => hw e.symm
          have hfilter : (ps ++ [(m, lbl)]).filter
              (fun p => lowerStr p.1 = lowerStr w.word) =
              ps.filter (fun p => lowerStr p.1 = lowerStr w.word) := by
            rw [List.filter_append]
            have h0 : [(m, lbl)].filter
                (fun p => lowerStr p.1 = lowerStr w.word) = [] := by
              simp [hneq]
            rw [h0, List.append_nil]
          rw [hfilter]

theorem applyAssignments_eq_resolveAll (ps : List (String × String))
    (es : List Word) : applyAssignments ps es = resolveAll ps es := by
  induction ps using List.reverseRecOn with
  | nil => exact (resolveAll_nil_ps es).symm
  | append_singleton ps p ih =>
    show applyAssignments (ps ++ [p]) es = _
    unfold applyAssignments
    rw [List.foldl_append]
    show assignLast (applyAssignments ps es) p.1 p.2 = _
    rw [ih, assignLast_resolveAll]

theorem identifyRoots_eq_resolveAll (es : List Word) :
    identifyRoots es = resolveAll rootAssignments es := by
  rw [← applyAssignments_eq_resolveAll]
  unfold identifyRoots rootAssignments applyAssignments
  generalize COMMON_ROOTS = t
  induction t generalizing es with
  | nil => rfl
  | cons fam t ih =>
    rw [List.foldl_cons, List.flatMap_cons, List.foldl_append, ih]
    congr 1
    rw [List.foldl_map]
    rfl

theorem resolveAll_getD (ps : List (String × String)) :
    ∀ (es : List Word) (i : Nat), i < es.length →
      (resolveAll ps es).getD i default =
        resolveOne ps (es.drop (i + 1)) (es.getD i default) := by
  intro es
  induction es with
  | nil => intro i hi; exact absurd hi (Nat.not_lt_zero i)
  | cons w ws ih =>
    intro i hi
    cases i with
    | zero => rfl
    | succ n =>
      show (resolveAll ps ws).getD n default = _
      rw [ih n (Nat.lt_of_succ_lt_succ hi)]
      rfl

/-- Witness for C2 at a concrete three-word family: the count is `C(3,2) = 3`
and a concrete unordered pair is connected. -/
theorem C2_same_root_exact_pairs_witness :
    ((ingestedState rootSampleEntries).sameRoot.filter
        (fun e => e.2.2 = "act")).length =
      Nat.choose (memberWords (ingestedState rootSampleEntries) "act").length 2 ∧
    (("act", "action", "act") ∈ (ingestedState rootSampleEntries).sameRoot ∨
      ("action", "act", "act") ∈ (ingestedState rootSampleEntries).sameRoot) :=
  ⟨(C2_same_root_exact_pairs rootSampleEntries "act").1,
    (C2_same_root_exact_pairs rootSampleEntries "act").2.2.2.2 "act" "action"
      (by decide) (by decide) (by decide)⟩

/-- C5 counterexample: on a list with two entries both headed `act` — a
word listed in the first root family, whose primary label is `act` — the
first entry keeps `root = ""` after the root-identification pass, because
the lowercase-headword dict retains only the last entry. -/
theorem C5_duplicate_headword_counterexample :
    (identifyRoots dupEntries).map Word.root = ["", "act"] ∧
    "act" ∈ (COMMON_ROOTS.getD 0 ("", [])).2 ∧
    primaryLabel (COMMON_ROOTS.getD 0 ("", [])).1 = "act" := by
  decide

/-- C5 (amended): the root-identification pass keeps the list length and
every headword; an entry with a *later* entry carrying the same lowercased
headword is left untouched (only the last such entry receives a root);
an entry that is the last occurrence of its lowercased headword gets
`root := lbl` when the table assigns `lbl` to that headword (the last
family in definition order listing the word wins), and keeps its root
unchanged (empty for parser output) when no family lists it. -/
theorem C5_root_identification_amended (es : List Word) (i : Nat)
    (hi : i < es.length) :
    (identifyRoots es).length = es.length ∧
    ((identifyRoots es).getD i default).word = (es.getD i default).word ∧
    (((es.drop (i + 1)).any (fun v =>
        lowerStr v.word = lowerStr (es.getD i default).word)) = true →
      (identifyRoots es).getD i default = es.getD i default) ∧
    (((es.drop (i + 1)).any (fun v =>
        lowerStr v.word = lowerStr (es.getD i default).word)) = false →
      (winningRoot (lowerStr (es.getD i default).word) = none →
        (identifyRoots es).getD i default = es.getD i default) ∧
      (∀ lbl : String,
        winningRoot (lowerStr (es.getD i default).word) = some lbl →
        (identifyRoots es).getD i default =
          { es.getD i default with root := lbl })) := by
  refine ⟨?_, ?_, ?_, ?_⟩
  · rw [identifyRoots_eq_resolveAll]
    exact resolveAll_length _ _
  · rw [identifyRoots_eq_resolveAll, resolveAll_getD _ es i hi]
    exact resolveOne_word _ _ _
  · intro hdup
    rw [identifyRoots_eq_resolveAll, resolveAll_getD _ es i hi]
    unfold resolveOne
    rw [if_pos hdup]
  · intro hdup
    rw [identifyRoots_eq_resolveAll, resolveAll_getD _ es i hi]
    unfold resolveOne
    rw [if_neg (by rw [hdup]; exact Bool.false_ne_true)]
    constructor
    · intro hw
      unfold winningRoot at hw
      cases hcase : (rootAssignments.filter (fun p =>
          lowerStr p.1 = lowerStr (es.getD i default).word)).getLast? with
      | none => rfl
      | some p =>
        rw [hcase] at hw
        simp at hw
    · intro lbl hw
      unfold winningRoot at hw
      cases hcase : (rootAssignments.filter (fun p =>
          lowerStr p.1 = lowerStr (es.getD i default).word)).getLast? with
      | none =>
        rw [hcase] at hw
        simp at hw
      | some p =>
        rw [hcase] at hw
        have hp : p.2 = lbl := by simpa using hw
        show ({ es.getD i default with root := p.2 } : Word) =
          { es.getD i default with root := lbl }
        rw [hp]

/-- Witness for C5 (amended) on the duplicate `act` list: the first entry
is untouched, the second gets root `act`. -/
theorem C5_root_identification_amended_witness :
    (identifyRoots dupEntries).getD 0 default = dupEntries.getD 0 default ∧
    (identifyRoots dupEntries).getD 1 default =
      { dupEntries.getD 1 default with root := "act" } :=
  ⟨(C5_root_identification_amended dupEntries 0 (by decide)).2.2.1 (by decide),
    ((C5_root_identification_amended dupEntries 1 (by decide)).2.2.2
      (by decide)).2 "act" (by decide)⟩

/-! ## Distractor generation (C3) and floor word selection (C4) -/

/-- C3 counterexample: the distractor query excludes only `NULL` and the
correct definition, not the empty string — with a corpus holding a word
whose definition is `""`, that empty definition is returned. -/
theorem C3_empty_string_counterexample :
    get_random_definitions (some (ingestedState [emptyDefEntry])) true id
      "苹果" 3 = .ok [""] := by
  decide

/-- C3 (amended): for every shuffle that is a permutation, the result
holds at most `count` definitions, pairwise distinct, none equal to the
correct definition, and of size `min count (pool size)` — so fewer than
`count` exactly when the corpus lacks enough distinct values.  (The claim's
"none equal to the empty string" is dropped: empty definitions are not
excluded.) -/
theorem C3_distractors_amended (conn : Option GraphState) (runOk : Bool)
    (shuffle : List String → List String)
    (hsh : ∀ l : List String, (shuffle l).Perm l)
    (correct : String) (count : Nat) (out : List String)
    (hout : get_random_definitions conn runOk shuffle correct count = .ok out) :
    out.length ≤ count ∧ out.Nodup ∧ (∀ d ∈ out, d ≠ correct) ∧
    (∀ s : GraphState, conn = some s → runOk = true →
      out.length = min count (definitionsPool s correct).length) := by
  match conn with
  | none =>
    have hout' : ([] : List String) = out := by
      injection hout
    subst hout'
    exact ⟨Nat.zero_le _, List.nodup_nil, fun d hd => absurd hd (by simp),
      fun s hs _ => by cases hs⟩
  | some s =>
    cases runOk with
    | false => cases hout
    | true =>
      have hout' : (shuffle (definitionsPool s correct)).take count = out := by
        injection hout
      subst hout'
      refine ⟨?_, ?_, ?_, ?_⟩
      · rw [List.length_take]
        exact Nat.min_le_left _ _
      · have hpool : (definitionsPool s correct).Nodup := List.nodup_dedup _
        exact List.Sublist.nodup (List.take_sublist _ _)
          ((hsh (definitionsPool s correct)).symm.nodup hpool)
      · intro d hd
        have hd1 : d ∈ shuffle (definitionsPool s correct) :=
          List.take_subset _ _ hd
        have hd2 : d ∈ definitionsPool s correct := ((hsh _).mem_iff).mp hd1
        have hd3 := List.mem_dedup.mp hd2
        have := (List.mem_filter.mp hd3).2
        exact of_decide_eq_true this
      · intro s' hs' _
        have hss : s' = s := by injection hs' with h; exact h.symm
        subst hss
        rw [List.length_take, (hsh _).length_eq]

/-- Witness for C3 (amended): a concrete pool of three definitions,
correct answer `A`, count 2 gives the two distinct non-`A` definitions. -/
theorem C3_distractors_amended_witness :
    (∀ d ∈ ["B", "C"], d ≠ "A") ∧ (["B", "C"] : List String).Nodup :=
  have h := C3_distractors_amended (some (ingestedState rootSampleEntries))
    true id (fun l => List.Perm.refl l) "A" 2 ["B", "C"] (by decide)
  ⟨h.2.2.1, h.2.1⟩

/-- C4: for every floor between 1 and 9 and every limit, the floor query
returns at most `limit` rows, each row's word is stored as a non-phrase
word, each row's grade is in the static floor table, and the table maps
floors 1–3 into the two lowest grade tiers (floor 2 to both), floors 4–6
into the two middle tiers (floor 5 to both), and floors 7–9 all to the top
tier (tiers read off the grade table's `level`). -/
theorem C4_floor_words (s : GraphState) (shuffle : List FloorRow → List FloorRow)
    (hsh : ∀ l : List FloorRow, (shuffle l).Perm l) (floor limit : Nat)
    (h1 : 1 ≤ floor) (h9 : floor ≤ 9) (out : List FloorRow)
    (hout : get_words_for_floor (some s) true shuffle floor limit = .ok out) :
    out.length ≤ limit ∧
    (∀ row ∈ out, (∃ p : WordProps, s.wordProps row.word = some p ∧
        p.is_phrase = false) ∧ row.grade ∈ floor_grade_map floor) ∧
    (floor ≤ 3 → ∀ g ∈ floor_grade_map floor,
      g ∈ (gradeTable.filter (fun t => t.2.level ≤ 2)).map Prod.fst) ∧
    (floor = 2 → floor_grade_map floor =
      (gradeTable.filter (fun t => t.2.level ≤ 2)).map Prod.fst) ∧
    (4 ≤ floor → floor ≤ 6 → ∀ g ∈ floor_grade_map floor,
      g ∈ (gradeTable.filter
        (fun t => 3 ≤ t.2.level ∧ t.2.level ≤ 4)).map Prod.fst) ∧
    (floor = 5 → floor_grade_map floor =
      (gradeTable.filter
        (fun t => 3 ≤ t.2.level ∧ t.2.level ≤ 4)).map Prod.fst) ∧
    (7 ≤ floor → floor_grade_map floor =
      (gradeTable.filter (fun t => t.2.level = 5)).map Prod.fst) := by
  have hout' : (shuffle (floorRowsQ s (floor_grade_map floor))).take limit =
      out := by
    injection hout
  subst hout'
  refine ⟨?_, ?_, ?_, ?_, ?_, ?_, ?_⟩
  · rw [List.length_take]
    exact Nat.min_le_left _ _
  · intro row hrow
    have hr1 : row ∈ shuffle (floorRowsQ s (floor_grade_map floor)) :=
      List.take_subset _ _ hrow
    have hr2 : row ∈ floorRowsQ s (floor_grade_map floor) :=
      ((hsh _).mem_iff).mp hr1
    rcases List.mem_filterMap.mp hr2 with ⟨e, _, he⟩
    cases hp : s.wordProps e.1 with
    | none => rw [hp] at he; cases he
    | some p =>
      rw [hp] at he
      dsimp only at he
      by_cases hc : e.1 ∈ s.wordKeys ∧ e.2 ∈ s.gradeKeys ∧
          e.2 ∈ floor_grade_map floor ∧ p.is_phrase = false
      · rw [if_pos hc] at he
        cases he
        exact ⟨⟨p, hp, hc.2.2.2⟩, hc.2.2.1⟩
      · rw [if_neg hc] at he
        cases he
  · intro h3
    interval_cases floor <;> decide
  · intro h2
    subst h2
    decide
  · intro h4 h6
    interval_cases floor <;> decide
  · intro h5
    subst h5
    decide
  · intro h7
    interval_cases floor <;> decide

/-- Witness for C4: floor 2 with three stored grade-7A words returns them
all, each of a grade mapped to floor 2. -/
theorem C4_floor_words_witness :
    ([⟨"act", "", "A", "", "7年级上册"⟩, ⟨"action", "", "B", "", "7年级上册"⟩,
        ⟨"react", "", "C", "", "7年级上册"⟩] : List FloorRow).length ≤ 10 ∧
    (∀ row ∈ ([⟨"act", "", "A", "", "7年级上册"⟩,
        ⟨"action", "", "B", "", "7年级上册"⟩,
        ⟨"react", "", "C", "", "7年级上册"⟩] : List FloorRow),
      row.grade ∈ floor_grade_map 2) :=
  have h := C4_floor_words (ingestedState rootSampleEntries) id
    (fun l => List.Perm.refl l) 2 10 (by decide) (by decide)
    [⟨"act", "", "A", "", "7年级上册"⟩, ⟨"action", "", "B", "", "7年级上册"⟩,
      ⟨"react", "", "C", "", "7年级上册"⟩] (by decide)
  ⟨h.1, fun row hrow => (h.2.1 row hrow).2⟩

/-! ## Serve-time failure semantics (C6) -/

/-- C6 counterexample: a connectivity failure raised while the query runs
(after a session was obtained) propagates out of `get_words_for_floor` —
the read queries have no exception handler. -/
theorem C6_runtime_failure_counterexample :
    get_words_for_floor (some emptyState) false id 1 10 = .error () := rfl

/-- C6 (amended): when the session cannot be acquired
(`get_session` returns `None`), every query operation returns its
empty/default result instead of propagating: floor selection, distractor
generation, words-by-root, the root catalog, the leaderboard, user lookup
and the database stats. -/
theorem C6_acquisition_failure_defaults (runOk : Bool)
    (shuffleF : List FloorRow → List FloorRow)
    (shuffleD : List String → List String)
    (floor limit count : Nat) (correct root uid : String) :
    get_words_for_floor none runOk shuffleF floor limit = .ok [] ∧
    get_random_definitions none runOk shuffleD correct count = .ok [] ∧
    get_words_by_root none runOk root = .ok [] ∧
    get_all_roots none runOk = .ok [] ∧
    get_top_students none runOk limit = .ok [] ∧
    get_user_by_id none runOk uid = .ok none ∧
    get_database_stats none runOk = .ok ⟨0, []⟩ :=
  ⟨rfl, rfl, rfl, rfl, rfl, rfl, rfl⟩

/-! ## Prize replacement (C7) -/

/-- C7 counterexample: `save_custom_prizes` is not atomic — the delete and
the per-prize creates auto-commit separately, so a failure after the
delete plus one create leaves one new prize: neither the original prize
set nor the full replacement. -/
theorem C7_partial_replace_counterexample :
    ((save_custom_prizes (some prizeStateC7) newPrizeInputs "parent" 2).1.map
        GraphState.prizes) =
      some [{ name := "p1", description := "d1", weight := 1,
              type := "parent" }] ∧
    ([{ name := "p1", description := "d1", weight := 1, type := "parent" }] :
        List PrizeNode) ≠ [oldParentPrize] ∧
    ([{ name := "p1", description := "d1", weight := 1, type := "parent" }] :
        List PrizeNode) ≠ newPrizeInputs.map (mkPrize "parent") := by
  decide

/-- C7 (amended): `replacePrizes` deletes all prizes of the type and then
creates the given list as separate auto-committed statements.  When every
statement runs, the store ends with the other types untouched plus exactly
the new list; if execution stops after `j + 1` statements (the delete and
`j` creates), the old prizes of that type are gone and only a prefix of
the new list exists; failing before any statement leaves the store
untouched; with no session nothing happens at all. -/
theorem C7_replace_prizes_amended (s : GraphState) (ps : List PrizeInput)
    (ptype : String) (k : Nat) :
    (ps.length + 1 ≤ k →
      save_custom_prizes (some s) ps ptype k =
        (some { s with
            prizes := s.prizes.filter (fun p => p.type ≠ ptype) ++
              ps.map (mkPrize ptype) },
          true)) ∧
    (k = 0 → save_custom_prizes (some s) ps ptype k = (some s, false)) ∧
    (∀ j : Nat, k = j + 1 → k < ps.length + 1 →
      save_custom_prizes (some s) ps ptype k =
        (some { s with
            prizes := s.prizes.filter (fun p => p.type ≠ ptype) ++
              (ps.take j).map (mkPrize ptype) },
          false)) ∧
    save_custom_prizes none ps ptype k = (none, true) := by
  refine ⟨?_, ?_, ?_, rfl⟩
  · intro hk
    show (if ps.length + 1 ≤ k then _ else _) = _
    rw [if_pos hk]
    rw [show replacePrizesSteps s ps ptype (ps.length + 1) =
        { s with prizes := s.prizes.filter (fun p => p.type ≠ ptype) ++
          (ps.take ps.length).map (mkPrize ptype) } from rfl,
      List.take_length]
  · intro hk
    subst hk
    dsimp only [save_custom_prizes]
    rw [if_neg (by omega)]
    rfl
  · intro j hj hlt
    subst hj
    show (if ps.length + 1 ≤ j + 1 then _ else _) = _
    rw [if_neg (by omega)]
    rfl

/-- Witness for C7 (amended): replacing the single stored parent prize
with two new ones, all three statements committing. -/
theorem C7_replace_prizes_amended_witness :
    save_custom_prizes (some prizeStateC7) newPrizeInputs "parent" 3 =
      (some { prizeStateC7 with
        prizes := newPrizeInputs.map (mkPrize "parent") }, true) :=
  ((C7_replace_prizes_amended prizeStateC7 newPrizeInputs "parent" 3).1
    (by decide)).trans rfl

/-! ## User reset (C8) -/

theorem reset_find_zeroed (uid : String) (now : Nat) :
    ∀ l : List UserNode, l.any (fun u => u.id = uid) = true →
      ((l.map (fun u => if u.id = uid then
          { u with total_questions := some 0, correct_answers := some 0,
                   score := some 0, current_floor := some 1,
                   mastered_count := some 0, wrong_count := some 0,
                   last_active := some now } else u)).find?
        (fun u => u.id = uid)).map toUserRecord =
      some { user_id := uid, total_questions := some 0,
             correct_answers := some 0, score := some 0,
             current_floor := some 1, mastered_count := some 0,
             wrong_count := some 0, last_active := some now } := by
  intro l hex
  rw [List.find?_map]
  have hcomp : ((fun u : UserNode => decide (u.id = uid)) ∘
      (fun u => if u.id = uid then
        { u with total_questions := some 0, correct_answers := some 0,
                 score := some 0, current_floor := some 1,
                 mastered_count := some 0, wrong_count := some 0,
                 last_active := some now } else u)) =
      (fun u : UserNode => decide (u.id = uid)) := by
    funext u
    by_cases h : u.id = uid <;> simp [Function.comp, h]
  rw [hcomp]
  obtain ⟨u, hu⟩ : ∃ u, l.find? (fun u => u.id = uid) = some u := by
    have h1 := List.find?_isSome.mpr (List.any_eq_true.mp hex)
    exact Option.isSome_iff_exists.mp h1
  rw [hu]
  have hpu := @List.find?_some UserNode (fun v => decide (v.id = uid)) u l hu
  have hid : u.id = uid := of_decide_eq_true hpu
  show some (toUserRecord (if u.id = uid then
    { u with total_questions := some 0, correct_answers := some 0,
             score := some 0, current_floor := some 1,
             mastered_count := some 0, wrong_count := some 0,
             last_active := some now } else u)) = _
  rw [if_pos hid]
  simp [toUserRecord, hid]

theorem reset_getD_frame (uid : String) (now : Nat) (l : List UserNode)
    (i : Nat) :
    ((l.map (fun u => if u.id = uid then
        { u with total_questions := some 0, correct_answers := some 0,
                 score := some 0, current_floor := some 1,
                 mastered_count := some 0, wrong_count := some 0,
                 last_active := some now } else u)).getD i default).id =
      (l.getD i default).id ∧
    ((l.map (fun u => if u.id = uid then
        { u with total_questions := some 0, correct_answers := some 0,
                 score := some 0, current_floor := some 1,
                 mastered_count := some 0, wrong_count := some 0,
                 last_active := some now } else u)).getD i
        default).parent_password =
      (l.getD i default).parent_password ∧
    ((l.getD i default).id ≠ uid →
      (l.map (fun u => if u.id = uid then
        { u with total_questions := some 0, correct_answers := some 0,
                 score := some 0, current_floor := some 1,
                 mastered_count := some 0, wrong_count := some 0,
                 last_active := some now } else u)).getD i default =
      l.getD i default) := by
  rw [List.getD_eq_getElem?_getD, List.getD_eq_getElem?_getD,
    List.getElem?_map]
  cases l[i]? with
  | none => exact ⟨rfl, rfl, fun _ => rfl⟩
  | some u =>
    by_cases hu : u.id = uid
    · refine ⟨by simp [hu], by simp [hu], fun hne => absurd hu ?_⟩
      simpa using hne
    · exact ⟨by simp [hu], by simp [hu], fun _ => by simp [hu]⟩

/-- C8: resetting an existing user zeroes `totalQuestions`,
`correctAnswers`, `score`, `masteredCount`, `wrongCount`, sets
`currentFloor` to 1 and refreshes `lastActive`; the node survives and is
retrievable with exactly those values, every user keeps its `id` and
`parentPassword`, users with a different id are fully unchanged, and the
rest of the graph is untouched. -/
theorem C8_reset_user_data (s : GraphState) (uid : String) (now : Nat)
    (hex : s.users.any (fun u => u.id = uid) = true) :
    reset_user_data (some s) true uid now = (true, some (resetApply s uid now)) ∧
    get_user_by_id (some (resetApply s uid now)) true uid =
      .ok (some
        { user_id := uid, total_questions := some 0,
          correct_answers := some 0, score := some 0, current_floor := some 1,
          mastered_count := some 0, wrong_count := some 0,
          last_active := some now }) ∧
    (resetApply s uid now).users.length = s.users.length ∧
    (∀ i : Nat,
      ((resetApply s uid now).users.getD i default).id =
        (s.users.getD i default).id ∧
      ((resetApply s uid now).users.getD i default).parent_password =
        (s.users.getD i default).parent_password ∧
      ((s.users.getD i default).id ≠ uid →
        (resetApply s uid now).users.getD i default =
          s.users.getD i default)) ∧
    (resetApply s uid now).wordKeys = s.wordKeys ∧
    (resetApply s uid now).belongsTo = s.belongsTo ∧
    (resetApply s uid now).prizes = s.prizes := by
  refine ⟨rfl, ?_, ?_, ?_, rfl, rfl, rfl⟩
  · show Except.ok (((resetApply s uid now).users.find?
        (fun u => u.id = uid)).map toUserRecord) = _
    rw [show (resetApply s uid now).users = s.users.map
        (fun u => if u.id = uid then
          { u with total_questions := some 0, correct_answers := some 0,
                   score := some 0, current_floor := some 1,
                   mastered_count := some 0, wrong_count := some 0,
                   last_active := some now } else u) from rfl,
      reset_find_zeroed uid now s.users hex]
  · show (s.users.map _).length = _
    rw [List.length_map]
  · exact reset_getD_frame uid now s.users

/-- Witness for C8 on a concrete user with score 500: after reset the
record reads all-zero with floor 1, and the parent password survives. -/
theorem C8_reset_user_data_witness :
    get_user_by_id (some (resetApply userStateC8 "stu" 200)) true "stu" =
      .ok (some
        { user_id := "stu", total_questions := some 0,
          correct_answers := some 0, score := some 0, current_floor := some 1,
          mastered_count := some 0, wrong_count := some 0,
          last_active := some 200 }) ∧
    ((resetApply userStateC8 "stu" 200).users.getD 0 default).parent_password =
      some "pw" :=
  have h := C8_reset_user_data userStateC8 "stu" 200 (by decide)
  ⟨h.2.1, by rw [(h.2.2.2.1 0).2.1]; rfl⟩

/-! ## User deletion (C9) -/

/-- C9: deleting an existing user succeeds and removes the node (the
schema attaches no relationship to `User` nodes — `BELONGS_TO`,
`HAS_ROOT`, `SAME_ROOT` only connect `Word`/`Grade`/`Root` — so removing
the node removes it together with all of its relationships, and the word
and relationship stores are untouched); afterwards no user with that id
remains and the user list strictly shrank; on a connectivity failure the
operation reports failure and removes nothing.  `delete_all_users` behaves
the same for every user node. -/
theorem C9_delete_user (s : GraphState) (uid : String)
    (hex : s.users.any (fun u => u.id = uid) = true) :
    delete_user (some s) true uid =
      (true, some { s with users := s.users.filter (fun u => u.id ≠ uid) }) ∧
    (∀ u ∈ s.users.filter (fun u => u.id ≠ uid), u.id ≠ uid) ∧
    (s.users.filter (fun u => u.id ≠ uid)).length < s.users.length ∧
    delete_user (some s) false uid = (false, some s) ∧
    delete_user none true uid = (false, none) ∧
    delete_all_users (some s) true = (true, some { s with users := [] }) ∧
    delete_all_users (some s) false = (false, some s) ∧
    delete_all_users none true = (false, none) := by
  refine ⟨rfl, ?_, ?_, rfl, rfl, rfl, rfl, rfl⟩
  · intro u hu
    exact of_decide_eq_true (List.mem_filter.mp hu).2
  · apply List.length_filter_lt_length_iff_exists.mpr
    rcases List.any_eq_true.mp hex with ⟨u, hu, hid⟩
    exact ⟨u, hu, by simp [of_decide_eq_true hid]⟩

/-- Witness for C9 on a one-user store. -/
theorem C9_delete_user_witness :
    delete_user (some userStateC8) true "stu" =
      (true, some { userStateC8 with
        users := userStateC8.users.filter (fun u => u.id ≠ "stu") }) ∧
    (userStateC8.users.filter (fun u => u.id ≠ "stu")).length <
      userStateC8.users.length :=
  have h := C9_delete_user userStateC8 "stu" (by decide)
  ⟨h.1, h.2.2.1⟩

/-! ## Parent password semantics (C10) -/

/-- C10: `getParentPassword` returns `None` when no user with the id
exists, when the stored property is null, and when the stored string is
empty — so an empty-string parent password is indistinguishable from no
password being set — and whenever it returns `None`, parent login
validates the entered password against the built-in default
(`ADMIN_PASSWORDS["parent"]`). -/
theorem C10_parent_password_empty_fallback (s : GraphState) (uid : String) :
    (s.users.find? (fun u => u.id = uid) = none →
      get_parent_password (some s) true uid = .ok none) ∧
    (∀ u : UserNode, s.users.find? (fun u => u.id = uid) = some u →
      u.parent_password = some "" →
      get_parent_password (some s) true uid = .ok none) ∧
    (∀ u : UserNode, s.users.find? (fun u => u.id = uid) = some u →
      u.parent_password = none →
      get_parent_password (some s) true uid = .ok none) ∧
    (∀ entered : String,
      get_parent_password (some s) true uid = .ok none →
      parent_login_ok (some s) true uid entered =
        .ok (entered = defaultParentPassword)) := by
  refine ⟨?_, ?_, ?_, ?_⟩
  · intro hfind
    dsimp only [get_parent_password]
    rw [hfind]
    rfl
  · intro u hfind hpw
    dsimp only [get_parent_password]
    rw [hfind]
    show Except.ok (match u.parent_password with
      | none => none
      | some p => if p = "" then none else some p) = Except.ok none
    rw [hpw]
    rfl
  · intro u hfind hpw
    dsimp only [get_parent_password]
    rw [hfind]
    show Except.ok (match u.parent_password with
      | none => none
      | some p => if p = "" then none else some p) = Except.ok none
    rw [hpw]
  · intro entered hnone
    unfold parent_login_ok
    rw [hnone]

/-- Witness for C10 on a user whose parent password is the empty string:
lookup yields `None` and login accepts exactly the default password. -/
theorem C10_parent_password_empty_fallback_witness :
    get_parent_password (some emptyPwState) true "kid" = .ok none ∧
    parent_login_ok (some emptyPwState) true "kid" "admin666" = .ok True :=
  have h := C10_parent_password_empty_fallback emptyPwState "kid"
  have h1 : get_parent_password (some emptyPwState) true "kid" = .ok none :=
    h.2.1 emptyPwUser (by decide) rfl
  ⟨h1, by
    rw [h.2.2.2 "admin666" h1]
    simp [defaultParentPassword]⟩

end WordGames
